import Mathlib

/-!
Verification of the World Flora Online crawl orchestrator
(src/scraping/world_flora_online.py) against its specification.

The Python module is embedded shallowly: every network interaction is
resolved by an explicit oracle (what each HTTP attempt returns, what the
taxonomy API enumerates, whether a file append succeeds), and the
side-effecting functions become pure state transformers over an explicit
crawl state that records the in-memory completed sets and an append-only
trace of the observable actions (page fetches, child enumerations, record
writes, completion-ledger writes).
-/

namespace WFO

/-- Taxonomic ranks tracked by the scraper: the four keys of the completed
dictionary built by load_completed_items (lines 219-253 of the source). -/
inductive Rank where
  | order
  | family
  | genus
  | species
deriving DecidableEq, Repr

/-- Outcome of a single HTTP attempt, as the except clauses of
get_page_content distinguish them: an HTTP response carrying a status code
and a body; an SSL-layer exception, with a flag telling whether its message
matches the SSLEOFError / UNEXPECTED_EOF_WHILE_READING markers (the
abrupt-termination class of line 120); or any other exception. -/
inductive Attempt (α : Type) where
  | status (code : Nat) (body : α)
  | sslExc (matchesEOF : Bool)
  | otherExc
deriving DecidableEq, Repr

/-- Result of the retry loop: the value returned to the caller (none models
the Python None), the list of backoff sleep durations issued in order, and
the number of attempts that were made. -/
structure FetchResult (α : Type) where
  content : Option α
  sleeps : List Nat
  requests : Nat
deriving DecidableEq, Repr

/-- The attempt outcomes that terminate the retry loop at once: a 200
response returns its body (line 108-109), a 404 returns None (line 110-112).
Every other outcome makes the loop continue. -/
def attemptTerminal? {α : Type} : Attempt α → Option (Option α)
  | .status code body =>
    if code = 200 then some (some body)
    else if code = 404 then some none
    else none
  | _ => none

/-- Backoff duration of a non-terminal attempt, from the branches of
get_page_content: 10 seconds for any other HTTP status (line 116),
180 seconds for an abrupt SSL termination (line 124), 10 seconds for an
SSL error that is not abrupt (line 128), 3 seconds for any other
exception (line 132). -/
def sleepDur {α : Type} : Attempt α → Nat
  | .status _ _ => 10
  | .sslExc true => 180
  | .sslExc false => 10
  | .otherExc => 3

/-- The retry loop of get_page_content, lines 105-134.  The second numeric
argument is the index of the current attempt, the third the number of loop
iterations that remain; a backoff sleep is issued only when another attempt
remains (the attempt < max_retries - 1 guards in the source). -/
def fetchGo {α : Type} (oracle : Nat → Attempt α) (maxRetries : Nat) :
    Nat → Nat → FetchResult α
  | _, 0 => ⟨none, [], 0⟩
  | attempt, fuel + 1 =>
    match attemptTerminal? (oracle attempt) with
    | some res => ⟨res, [], 1⟩
    | none =>
      let rest := fetchGo oracle maxRetries (attempt + 1) fuel
      ⟨rest.content,
       (if attempt < maxRetries - 1 then [sleepDur (oracle attempt)] else [])
         ++ rest.sleeps,
       rest.requests + 1⟩

/-- get_page_content called with its default max_retries = 5. -/
def getPageContent (oracle : Nat → Attempt String) : FetchResult String :=
  fetchGo oracle 5 0 5

/-- The sleeps issued by a run of consecutive non-terminal attempts starting
at a given attempt index, one backoff per attempt. -/
def sleepRun {α : Type} (oracle : Nat → Attempt α) : Nat → Nat → List Nat
  | _, 0 => []
  | attempt, i + 1 => sleepDur (oracle attempt) :: sleepRun oracle (attempt + 1) i

/-- The attr sub-object inside the data field of an API item, as read by
get_taxon_children: only its href is consulted (with default empty
string). -/
structure RawHrefAttr where
  href : String
deriving DecidableEq, Repr

/-- The data field of an API item: its title (read with default empty
string) and its optional attr sub-object (the in-test of line 281). -/
structure RawDataField where
  title : String
  attr : Option RawHrefAttr
deriving DecidableEq, Repr

/-- The item-level attr object: only its id is consulted (with default
empty string). -/
structure RawIdAttr where
  id : String
deriving DecidableEq, Repr

/-- One element of the JSON list returned by the taxonomy API, with the
optional fields get_taxon_children tests for. -/
structure RawItem where
  data : Option RawDataField
  attr : Option RawIdAttr
deriving DecidableEq, Repr

/-- A parsed child taxon entry: the dictionaries built at lines 287-291
and 469-473 of the source. -/
structure Child where
  name : String
  url : String
  id : String
deriving DecidableEq, Repr

/-- The site base URL (line 23). -/
def BASE_URL : String := "https://www.worldfloraonline.org"

/-- Line 286: the href is made absolute against BASE_URL unless it already
starts with http. -/
def mkFullUrl (href : String) : String :=
  if href.startsWith "http" then href else BASE_URL ++ "/" ++ href

/-- The parsing loop shared by get_taxon_children (lines 279-293) and the
order parsing in main (lines 461-473): items missing the data field or the
attr sub-field are skipped, and an entry is kept only when title, href and
id are all non-empty (truthiness test of lines 285 and 467). -/
def parseTaxonItems (data : List RawItem) : List Child :=
  data.foldl
    (fun acc item =>
      match item.data with
      | none => acc
      | some d =>
        match d.attr with
        | none => acc
        | some a =>
          let childId := (item.attr.map RawIdAttr.id).getD ""
          if d.title ≠ "" ∧ a.href ≠ "" ∧ childId ≠ "" then
            acc ++ [{ name := d.title, url := mkFullUrl a.href, id := childId }]
          else acc)
    []

/-- get_api_data with its default max_retries = 5: the same retry loop as
get_page_content, returning parsed JSON.  A 200 response whose body fails
json parsing raises inside the try and lands in the generic except clause,
which is the otherExc outcome of the oracle. -/
def getApiData (oracle : Nat → Attempt (List RawItem)) : FetchResult (List RawItem) :=
  fetchGo oracle 5 0 5

/-- get_taxon_children, lines 272-293, applied to the value get_api_data
returned: a None (or an empty list, both falsy at line 276) yields the
empty child list, otherwise the items are parsed. -/
def getTaxonChildren (apiResult : Option (List RawItem)) : List Child :=
  match apiResult with
  | none => []
  | some data => if data.isEmpty then [] else parseTaxonItems data

/-- get_taxon_children composed with its own API call. -/
def getTaxonChildrenRun (oracle : Nat → Attempt (List RawItem)) : List Child :=
  getTaxonChildren (getApiData oracle).content

/-- One observable action of a run. -/
inductive TraceEntry where
  | rootEnum
  | pageFetch (url : String)
  | childEnum (taxonId : String)
  | recordWrite (page_type : Rank) (identifier : String)
  | completionWrite (page_type : Rank) (identifier : String)
deriving DecidableEq, Repr

/-- The mutable state of a run: the four in-memory completed sets (the
completed dictionary threaded through the process functions) and the trace
of actions performed so far. -/
structure CrawlState where
  completed : Rank → List String
  trace : List TraceEntry

/-- The environment oracle resolving every effect of a run. -/
structure Env where
  fetchOk : String → Bool
  saveOk : Rank → String → Bool
  children : String → List Child
  appendOk : Rank → String → Bool
  rootOrders : Option (List Child)

/-- Record an action at the end of the trace. -/
def logTrace (st : CrawlState) (e : TraceEntry) : CrawlState :=
  { st with trace := st.trace ++ [e] }

/-- Insert an identifier into the in-memory completed set of a rank
(the completed[rank].add(id) calls of the source). -/
def addCompleted (st : CrawlState) (r : Rank) (id : String) : CrawlState :=
  { st with
    completed := fun r' => if r' = r then id :: st.completed r else st.completed r' }

/-- mark_item_completed, lines 256-269: one completion event is appended to
the completion file; a failing append is caught, logged and swallowed, so
the caller cannot observe it. -/
def markItemCompleted (env : Env) (st : CrawlState) (r : Rank) (id : String) :
    CrawlState :=
  if env.appendOk r id then logTrace st (.completionWrite r id) else st

/-- save_page, lines 185-216: on success one record line is appended to the
record store and True is returned; on an exception False is returned. -/
def savePage (env : Env) (st : CrawlState) (r : Rank) (id : String) :
    CrawlState × Bool :=
  if env.saveOk r id then (logTrace st (.recordWrite r id), true) else (st, false)

/-- The fetch-then-save step shared verbatim by all four per-node bodies
(for example lines 311-319 for a family): the page content is fetched, and
save_page runs only when content came back; the saved flag is True exactly
when save_page returned True. -/
def fetchAndSave (env : Env) (st : CrawlState) (r : Rank) (url id : String) :
    CrawlState × Bool :=
  let st1 := logTrace st (.pageFetch url)
  if env.fetchOk url then savePage env st1 r id else (st1, false)

/-- process_species, lines 408-440: skip when already completed; otherwise
fetch and save, and mark completed exactly when save_page returned True
(species are leaves, no children are awaited). -/
def processSpecies (env : Env) (st : CrawlState) (sp : Child) : CrawlState :=
  if sp.id ∈ st.completed Rank.species then st
  else
    let fs := fetchAndSave env st Rank.species sp.url sp.id
    if fs.2 then
      addCompleted (markItemCompleted env fs.1 Rank.species sp.id) Rank.species sp.id
    else fs.1

/-- process_genus, lines 352-405: skip when already completed; fetch and
save the genus page; enumerate its species; process them (the pool fans out
over the reversed list); then mark the genus completed only when its own
page was saved and every enumerated species is in the in-memory completed
set at the moment of the check (lines 395-405). -/
def processGenus (env : Env) (st : CrawlState) (g : Child) : CrawlState :=
  if g.id ∈ st.completed Rank.genus then st
  else
    let fs := fetchAndSave env st Rank.genus g.url g.id
    let st2 := logTrace fs.1 (.childEnum g.id)
    let st3 := (env.children g.id).reverse.foldl (processSpecies env) st2
    if fs.2 && (env.children g.id).all
        (fun sp => decide (sp.id ∈ st3.completed Rank.species)) then
      addCompleted (markItemCompleted env st3 Rank.genus g.id) Rank.genus g.id
    else st3

/-- process_family, lines 296-349: the same shape one rank up, over the
enumerated genera (completion check at lines 339-349). -/
def processFamily (env : Env) (st : CrawlState) (f : Child) : CrawlState :=
  if f.id ∈ st.completed Rank.family then st
  else
    let fs := fetchAndSave env st Rank.family f.url f.id
    let st2 := logTrace fs.1 (.childEnum f.id)
    let st3 := (env.children f.id).reverse.foldl (processGenus env) st2
    if fs.2 && (env.children f.id).all
        (fun g => decide (g.id ∈ st3.completed Rank.genus)) then
      addCompleted (markItemCompleted env st3 Rank.family f.id) Rank.family f.id
    else st3

/-- The per-order body of the loop in main, lines 481-534: skip when the
order is already completed (lines 488-491); fetch and save the order page;
enumerate its families; process them; mark the order completed only when
its page was saved and all families are completed (lines 522-532). -/
def processOrder (env : Env) (st : CrawlState) (o : Child) : CrawlState :=
  if o.id ∈ st.completed Rank.order then st
  else
    let fs := fetchAndSave env st Rank.order o.url o.id
    let st2 := logTrace fs.1 (.childEnum o.id)
    let st3 := (env.children o.id).reverse.foldl (processFamily env) st2
    if fs.2 && (env.children o.id).all
        (fun f => decide (f.id ∈ st3.completed Rank.family)) then
      addCompleted (markItemCompleted env st3 Rank.order o.id) Rank.order o.id
    else st3

/-- main, lines 443-538: the completed sets are loaded (the init argument),
the root order enumeration is issued (line 456, one API call), and when it
returns usable data each order is processed in reverse; a falsy result
returns at once (line 457-459), which coincides with the fold over an empty
list. -/
def mainRun (env : Env) (init : Rank → List String) : CrawlState :=
  let st0 : CrawlState := { completed := init, trace := [TraceEntry.rootEnum] }
  match env.rootOrders with
  | none => st0
  | some orders => orders.reverse.foldl (processOrder env) st0

/-- One line of the completion file, as load_completed_items classifies it:
a blank line (falsy after strip, line 235), a line that is not valid JSON
(line 243), or a parsed event whose page_type and identifier fields are
read with dict.get (none models a missing field). -/
inductive LedgerLine where
  | blank
  | invalidJson
  | event (page_type : Option String) (identifier : Option String)
deriving DecidableEq, Repr

/-- The four strings used as page_type keys of the completed dictionary. -/
def rankOfString (s : String) : Option Rank :=
  if s = "order" then some Rank.order
  else if s = "family" then some Rank.family
  else if s = "genus" then some Rank.genus
  else if s = "species" then some Rank.species
  else none

/-- The page_type string mark_item_completed writes for a rank. -/
def rankToString : Rank → String
  | .order => "order"
  | .family => "family"
  | .genus => "genus"
  | .species => "species"

/-- Insert an identifier into one of the four accumulated sets. -/
def addItem (acc : Rank → List String) (r : Rank) (id : String) :
    Rank → List String :=
  fun r' => if r' = r then id :: acc r else acc r'

/-- The line loop of load_completed_items, lines 234-244: blank lines and
invalid JSON are skipped; an event with falsy page_type or identifier is
ignored (line 241); an event whose truthy page_type is not one of the four
keys raises KeyError at completed[page_type], which the outer except of
line 250 catches, ending the scan with the sets accumulated so far. -/
def loadGo : List LedgerLine → (Rank → List String) → Rank → List String
  | [], acc => acc
  | .event (some pt) (some id) :: rest, acc =>
    if pt ≠ "" ∧ id ≠ "" then
      match rankOfString pt with
      | some r => loadGo rest (addItem acc r id)
      | none => acc
    else loadGo rest acc
  | _ :: rest, acc => loadGo rest acc

/-- load_completed_items, lines 219-253: a missing completion file yields
four empty sets (line 228-229); otherwise the file is scanned line by
line. -/
def loadCompletedItems : Option (List LedgerLine) → Rank → List String
  | none => fun _ => []
  | some lines => loadGo lines (fun _ => [])

/-- The completion-file lines a run appends: mark_item_completed writes one
well-formed JSON event per successful append, and the trace records a
completionWrite exactly for the successful appends. -/
def ledgerLinesOf (tr : List TraceEntry) : List LedgerLine :=
  tr.filterMap
    (fun e =>
      match e with
      | .completionWrite r id => some (.event (some (rankToString r)) (some id))
      | _ => none)

/-- A trace extension is good when every completion event inside it is
preceded (in the base trace or earlier in the extension) by a record write
for the same rank and identifier. -/
def GoodExt (base δ : List TraceEntry) : Prop :=
  ∀ d1 r id d2, δ = d1 ++ TraceEntry.completionWrite r id :: d2 →
    TraceEntry.recordWrite r id ∈ base ++ d1

/-- Every completion event in the trace is preceded by a record write for
the same rank and identifier. -/
def RecBefore (tr : List TraceEntry) : Prop :=
  ∀ l1 r id l2, tr = l1 ++ TraceEntry.completionWrite r id :: l2 →
    TraceEntry.recordWrite r id ∈ l1

/-- The facts a single orchestrator step guarantees: the trace is only
appended to, with records preceding completions in the appended part and
all appended completion events confined to the allowed ranks; the completed
sets only grow; and every identifier newly present in a completed set
either has its completion event in the new trace or had its ledger append
fail. -/
def StepOk (env : Env) (allowed : List Rank) (st st' : CrawlState) : Prop :=
  (∃ δ, st'.trace = st.trace ++ δ ∧ GoodExt st.trace δ ∧
      ∀ r id, TraceEntry.completionWrite r id ∈ δ → r ∈ allowed) ∧
  (∀ r id, id ∈ st.completed r → id ∈ st'.completed r) ∧
  (∀ r id, id ∈ st'.completed r →
      id ∈ st.completed r ∨ TraceEntry.completionWrite r id ∈ st'.trace ∨
        env.appendOk r id = false)

/-- A ledger line that makes load_completed_items abort its scan: a parsed
event whose page_type and identifier are truthy but whose page_type is not
one of the four rank keys (the KeyError case). -/
def Aborting : LedgerLine → Prop
  | .event (some pt) (some id) => pt ≠ "" ∧ id ≠ "" ∧ rankOfString pt = none
  | _ => False

/-- The empty starting state of a fresh run. -/
def stEmpty : CrawlState := { completed := fun _ => [], trace := [] }

/-- A state in which X1 is completed at every rank. -/
def stDone : CrawlState := { completed := fun _ => ["X1"], trace := [] }

/-- A fully cooperative environment with one root order and no children
anywhere. -/
def envTest : Env :=
  { fetchOk := fun _ => true
    saveOk := fun _ _ => true
    children := fun _ => []
    appendOk := fun _ _ => true
    rootOrders := some [{ name := "Ord", url := "uo", id := "O1" }] }

/-- The same environment with every completion-file append failing. -/
def envNoAppend : Env := { envTest with appendOk := fun _ _ => false }

/-- A sample species node. -/
def spTest : Child := { name := "Sp", url := "us", id := "s1" }

/-- A sample family node. -/
def famTest : Child := { name := "Fam", url := "uf", id := "f1" }

theorem sleepRun_length {α : Type} (oracle : Nat → Attempt α) :
    ∀ i attempt, (sleepRun oracle attempt i).length = i := by
  intro i
  induction i with
  | zero => intro attempt; rfl
  | succ n ih => intro attempt; simp [sleepRun, ih]

theorem sleepRun_getElem {α : Type} (oracle : Nat → Attempt α) :
    ∀ i attempt j, j < i →
      (sleepRun oracle attempt i)[j]? = some (sleepDur (oracle (attempt + j))) := by
  intro i
  induction i with
  | zero => intro attempt j hj; omega
  | succ n ih =>
    intro attempt j hj
    cases j with
    | zero => simp [sleepRun]
    | succ k =>
      have := ih (attempt + 1) k (by omega)
      simp only [sleepRun, List.getElem?_cons_succ]
      rw [this]
      ring_nf

/-- The attempts made by the loop are bounded by the remaining fuel. -/
theorem fetchGo_requests_le {α : Type} (oracle : Nat → Attempt α) (M : Nat) :
    ∀ fuel attempt, (fetchGo oracle M attempt fuel).requests ≤ fuel := by
  intro fuel
  induction fuel with
  | zero => intro attempt; simp [fetchGo]
  | succ f ih =>
    intro attempt
    rw [fetchGo]
    cases h : attemptTerminal? (oracle attempt) with
    | some res => simp
    | none =>
      simp only []
      exact Nat.succ_le_succ (ih (attempt + 1))

/-- Stepping over a run of consecutive non-terminal attempts: at the fixed
bound 5, the loop spends one attempt and one backoff sleep per non-terminal
attempt before reaching the first attempt that is not covered by the run. -/
theorem fetchGo_skip (oracle : Nat → Attempt String) :
    ∀ i attempt, attempt + i < 5 →
      (∀ j, j < i → attemptTerminal? (oracle (attempt + j)) = none) →
      fetchGo oracle 5 attempt (5 - attempt) =
        ⟨(fetchGo oracle 5 (attempt + i) (5 - (attempt + i))).content,
         sleepRun oracle attempt i
           ++ (fetchGo oracle 5 (attempt + i) (5 - (attempt + i))).sleeps,
         i + (fetchGo oracle 5 (attempt + i) (5 - (attempt + i))).requests⟩ := by
  intro i
  induction i with
  | zero =>
    intro attempt _ _
    simp [sleepRun]
  | succ n ih =>
    intro attempt hlt hrun
    have hstep : attemptTerminal? (oracle attempt) = none := by
      have := hrun 0 (by omega)
      simpa using this
    have hfuel : 5 - attempt = (5 - (attempt + 1)) + 1 := by omega
    rw [hfuel, fetchGo, hstep]
    simp only []
    have ihh := ih (attempt + 1) (by omega) (by
      intro j hj
      have := hrun (j + 1) (by omega)
      have harith : attempt + (j + 1) = attempt + 1 + j := by omega
      rwa [harith] at this)
    rw [ihh]
    have hsleep : attempt < 5 - 1 := by omega
    have harith2 : attempt + 1 + n = attempt + (n + 1) := by omega
    simp only [if_pos hsleep, harith2, sleepRun, FetchResult.mk.injEq]
    refine ⟨trivial, by simp, by omega⟩

/-- Splitting a decomposition of an appended list at a distinguished
element: the element lies either inside the first part or inside the
second. -/
theorem append_split {α : Type} :
    ∀ (t δ l1 l2 : List α) (c : α), t ++ δ = l1 ++ c :: l2 →
      (∃ m, t = l1 ++ c :: m) ∨ (∃ d1, l1 = t ++ d1 ∧ δ = d1 ++ c :: l2) := by
  intro t
  induction t with
  | nil =>
    intro δ l1 l2 c h
    exact Or.inr ⟨l1, by simp, by simpa using h⟩
  | cons x t' ih =>
    intro δ l1 l2 c h
    cases l1 with
    | nil =>
      simp only [List.nil_append, List.cons_append, List.cons.injEq] at h
      exact Or.inl ⟨t', by simp [h.1]⟩
    | cons y l1' =>
      simp only [List.cons_append, List.cons.injEq] at h
      rcases ih δ l1' l2 c h.2 with ⟨m, hm⟩ | ⟨d1, hd1, hd2⟩
      · exact Or.inl ⟨m, by simp [h.1, hm]⟩
      · exact Or.inr ⟨d1, by simp [h.1, hd1], hd2⟩

theorem goodExt_nil (base : List TraceEntry) : GoodExt base [] := by
  intro d1 r id d2 h
  exact absurd h.symm (by simp)

theorem goodExt_of_not_comp {base δ : List TraceEntry}
    (h : ∀ r id, TraceEntry.completionWrite r id ∉ δ) : GoodExt base δ := by
  intro d1 r id d2 heq
  exact absurd (heq ▸ (List.mem_append_right d1 (List.mem_cons_self _ _)))
    (h r id)

theorem goodExt_single {base : List TraceEntry} {r : Rank} {id : String}
    (hrec : TraceEntry.recordWrite r id ∈ base) :
    GoodExt base [TraceEntry.completionWrite r id] := by
  intro d1 r' id' d2 heq
  cases d1 with
  | nil =>
    simp only [List.nil_append, List.cons.injEq] at heq
    obtain ⟨h1, -⟩ := heq
    cases h1
    simpa using hrec
  | cons a t =>
    simp only [List.cons_append, List.cons.injEq] at heq
    exact absurd heq.2 (by simp)

theorem goodExt_append {base δ1 δ2 : List TraceEntry}
    (h1 : GoodExt base δ1) (h2 : GoodExt (base ++ δ1) δ2) :
    GoodExt base (δ1 ++ δ2) := by
  intro d1 r id d2 heq
  rcases append_split δ1 δ2 d1 d2 _ heq with ⟨m, hm⟩ | ⟨e1, he1, he2⟩
  · exact h1 d1 r id m hm
  · have hmem := h2 e1 r id d2 he2
    rw [he1]
    rwa [List.append_assoc] at hmem

theorem recBefore_append {t δ : List TraceEntry}
    (h : RecBefore t) (hg : GoodExt t δ) : RecBefore (t ++ δ) := by
  intro l1 r id l2 heq
  rcases append_split t δ l1 l2 _ heq with ⟨m, hm⟩ | ⟨d1, hd1, hd2⟩
  · exact h l1 r id m hm
  · have hmem := hg d1 r id l2 hd2
    rw [hd1]
    exact hmem

theorem logTrace_completed (st : CrawlState) (e : TraceEntry) :
    (logTrace st e).completed = st.completed := rfl

theorem addCompleted_trace (st : CrawlState) (r : Rank) (id : String) :
    (addCompleted st r id).trace = st.trace := rfl

theorem mem_addCompleted {st : CrawlState} {r r' : Rank} {id x : String} :
    x ∈ (addCompleted st r id).completed r' ↔
      (r' = r ∧ x = id) ∨ x ∈ st.completed r' := by
  unfold addCompleted
  by_cases h : r' = r
  · subst h
    simp
  · simp [h]

theorem markItemCompleted_completed (env : Env) (st : CrawlState) (r : Rank)
    (id : String) : (markItemCompleted env st r id).completed = st.completed := by
  unfold markItemCompleted
  split <;> rfl

/-- Case characterisation of the fetch-then-save step: either both the
fetch and the save succeed, appending the page-fetch action and one record
write and returning True, or one of them fails, appending only the
page-fetch action and returning False. -/
theorem fetchAndSave_spec (env : Env) (st : CrawlState) (r : Rank)
    (url id : String) :
    (env.fetchOk url = true ∧ env.saveOk r id = true ∧
      fetchAndSave env st r url id =
        ({ st with trace := st.trace ++
            [TraceEntry.pageFetch url, TraceEntry.recordWrite r id] }, true)) ∨
    ((env.fetchOk url = false ∨ env.saveOk r id = false) ∧
      fetchAndSave env st r url id =
        ({ st with trace := st.trace ++ [TraceEntry.pageFetch url] }, false)) := by
  unfold fetchAndSave savePage logTrace
  cases hf : env.fetchOk url with
  | false => exact Or.inr ⟨Or.inl rfl, by simp⟩
  | true =>
    cases hs : env.saveOk r id with
    | false => exact Or.inr ⟨Or.inr rfl, by simp⟩
    | true => exact Or.inl ⟨rfl, rfl, by simp⟩

theorem stepOk_refl (env : Env) (A : List Rank) (st : CrawlState) :
    StepOk env A st st :=
  ⟨⟨[], by simp, goodExt_nil _, by simp⟩, fun _ _ h => h, fun _ _ h => Or.inl h⟩

theorem stepOk_trans {env : Env} {A : List Rank} {st st' st'' : CrawlState}
    (h1 : StepOk env A st st') (h2 : StepOk env A st' st'') :
    StepOk env A st st'' := by
  obtain ⟨⟨δ1, ht1, hg1, hr1⟩, hm1, hb1⟩ := h1
  obtain ⟨⟨δ2, ht2, hg2, hr2⟩, hm2, hb2⟩ := h2
  refine ⟨⟨δ1 ++ δ2, ?_, ?_, ?_⟩, ?_, ?_⟩
  · rw [ht2, ht1, List.append_assoc]
  · exact goodExt_append hg1 (ht1 ▸ hg2)
  · intro r id h
    rcases List.mem_append.mp h with h | h
    · exact hr1 r id h
    · exact hr2 r id h
  · exact fun r id h => hm2 r id (hm1 r id h)
  · intro r id h
    rcases hb2 r id h with h | h | h
    · rcases hb1 r id h with h' | h' | h'
      · exact Or.inl h'
      · exact Or.inr (Or.inl (ht2 ▸ List.mem_append_left δ2 h'))
      · exact Or.inr (Or.inr h')
    · exact Or.inr (Or.inl h)
    · exact Or.inr (Or.inr h)

theorem stepOk_mono_allowed {env : Env} {A A' : List Rank}
    {st st' : CrawlState} (hsub : ∀ r ∈ A, r ∈ A')
    (h : StepOk env A st st') : StepOk env A' st st' := by
  obtain ⟨⟨δ, ht, hg, hr⟩, hm, hb⟩ := h
  exact ⟨⟨δ, ht, hg, fun r id hmem => hsub r (hr r id hmem)⟩, hm, hb⟩

theorem stepOk_foldl {env : Env} {A : List Rank} {β : Type}
    (f : CrawlState → β → CrawlState) :
    ∀ (l : List β), (∀ (s : CrawlState) (x : β), x ∈ l → StepOk env A s (f s x)) →
      ∀ s, StepOk env A s (l.foldl f s) := by
  intro l
  induction l with
  | nil => intro _ s; exact stepOk_refl env A s
  | cons x xs ih =>
    intro hf s
    rw [List.foldl_cons]
    exact stepOk_trans (hf s x (by simp))
      (ih (fun s' y hy => hf s' y (by simp [hy])) (f s x))

/-- A step that leaves the completed sets unchanged and appends no
completion event satisfies StepOk for any allowed list. -/
theorem stepOk_of_plain {env : Env} {A : List Rank} {st st' : CrawlState}
    {δ : List TraceEntry} (ht : st'.trace = st.trace ++ δ)
    (hc : st'.completed = st.completed)
    (hδ : ∀ r id, TraceEntry.completionWrite r id ∉ δ) :
    StepOk env A st st' := by
  refine ⟨⟨δ, ht, goodExt_of_not_comp hδ, fun r id h => absurd h (hδ r id)⟩,
    ?_, ?_⟩
  · intro r id h; rw [hc]; exact h
  · intro r id h; rw [hc] at h; exact Or.inl h

theorem stepOk_processSpecies (env : Env) (sp : Child) (st : CrawlState) :
    StepOk env [Rank.species] st (processSpecies env st sp) := by
  by_cases hskip : sp.id ∈ st.completed Rank.species
  · simp only [processSpecies, if_pos hskip]
    exact stepOk_refl env _ st
  · rcases fetchAndSave_spec env st Rank.species sp.url sp.id with
      ⟨hf, hs, heq⟩ | ⟨hfail, heq⟩
    · cases ha : env.appendOk Rank.species sp.id with
      | true =>
        simp only [processSpecies, if_neg hskip, heq, if_true]
        refine ⟨⟨[TraceEntry.pageFetch sp.url,
            TraceEntry.recordWrite Rank.species sp.id] ++
            [TraceEntry.completionWrite Rank.species sp.id], ?_,
            goodExt_append (goodExt_of_not_comp ?_) (goodExt_single ?_), ?_⟩,
            ?_, ?_⟩
        · simp [markItemCompleted, ha, addCompleted, logTrace]
        · intro r id h; simp at h
        · simp
        · intro r id h
          simp at h
          simp [h.1]
        · intro r id h
          rw [mem_addCompleted, markItemCompleted_completed]
          exact Or.inr h
        · intro r id h
          rw [mem_addCompleted, markItemCompleted_completed] at h
          rcases h with ⟨h1, h2⟩ | h
          · subst h1; subst h2
            refine Or.inr (Or.inl ?_)
            simp [markItemCompleted, ha, addCompleted, logTrace]
          · exact Or.inl h
      | false =>
        simp only [processSpecies, if_neg hskip, heq, if_true]
        refine ⟨⟨[TraceEntry.pageFetch sp.url,
            TraceEntry.recordWrite Rank.species sp.id], ?_,
            goodExt_of_not_comp ?_, ?_⟩, ?_, ?_⟩
        · simp [markItemCompleted, ha, addCompleted, logTrace]
        · intro r id h; simp at h
        · intro r id h; simp at h
        · intro r id h
          rw [mem_addCompleted, markItemCompleted_completed]
          exact Or.inr h
        · intro r id h
          rw [mem_addCompleted, markItemCompleted_completed] at h
          rcases h with ⟨h1, h2⟩ | h
          · subst h1; subst h2
            exact Or.inr (Or.inr ha)
          · exact Or.inl h
    · simp only [processSpecies, if_neg hskip, heq, if_false]
      exact stepOk_of_plain (δ := [TraceEntry.pageFetch sp.url]) rfl rfl
        (by intro r id h; simp at h)

/-- The shared non-skip body of the three non-leaf per-node functions:
fetch and save the node page, enumerate and process the children, then mark
the node completed exactly when its own save succeeded and all enumerated
children are completed at the check. -/
theorem stepOk_parentBody (env : Env) (r cr : Rank) (n : Child)
    (f : CrawlState → Child → CrawlState) (A : List Rank)
    (hmem : r ∈ A) (hf : ∀ (s : CrawlState) (x : Child), StepOk env A s (f s x))
    (st : CrawlState) :
    StepOk env A st
      (if (fetchAndSave env st r n.url n.id).2 &&
          (env.children n.id).all (fun c => decide (c.id ∈
            ((env.children n.id).reverse.foldl f
              (logTrace (fetchAndSave env st r n.url n.id).1
                (TraceEntry.childEnum n.id))).completed cr)) then
        addCompleted
          (markItemCompleted env
            ((env.children n.id).reverse.foldl f
              (logTrace (fetchAndSave env st r n.url n.id).1
                (TraceEntry.childEnum n.id))) r n.id) r n.id
      else
        (env.children n.id).reverse.foldl f
          (logTrace (fetchAndSave env st r n.url n.id).1
            (TraceEntry.childEnum n.id))) := by
  rcases fetchAndSave_spec env st r n.url n.id with ⟨hfk, hsv, heq⟩ | ⟨hfail, heq⟩
  · simp only [heq, Bool.true_and]
    have h2 : StepOk env A st
        (logTrace ⟨st.completed, st.trace ++
          [TraceEntry.pageFetch n.url, TraceEntry.recordWrite r n.id]⟩
          (TraceEntry.childEnum n.id)) :=
      stepOk_of_plain
        (δ := [TraceEntry.pageFetch n.url, TraceEntry.recordWrite r n.id,
          TraceEntry.childEnum n.id])
        (by simp [logTrace]) rfl (by intro r' id' h; simp at h)
    have h3 : StepOk env A
        (logTrace ⟨st.completed, st.trace ++
          [TraceEntry.pageFetch n.url, TraceEntry.recordWrite r n.id]⟩
          (TraceEntry.childEnum n.id))
        ((env.children n.id).reverse.foldl f
          (logTrace ⟨st.completed, st.trace ++
            [TraceEntry.pageFetch n.url, TraceEntry.recordWrite r n.id]⟩
            (TraceEntry.childEnum n.id))) :=
      stepOk_foldl f _ (fun s x _ => hf s x) _
    have h23 := stepOk_trans h2 h3
    obtain ⟨δf, htf, -, -⟩ := h3.1
    by_cases hall : ((env.children n.id).all (fun c => decide (c.id ∈
        ((env.children n.id).reverse.foldl f
          (logTrace ⟨st.completed, st.trace ++
            [TraceEntry.pageFetch n.url, TraceEntry.recordWrite r n.id]⟩
            (TraceEntry.childEnum n.id))).completed cr))) = true
    · rw [if_pos hall]
      cases ha : env.appendOk r n.id with
      | true =>
        refine stepOk_trans h23
          ⟨⟨[TraceEntry.completionWrite r n.id], ?_, goodExt_single ?_, ?_⟩,
            ?_, ?_⟩
        · simp [markItemCompleted, ha, addCompleted, logTrace]
        · rw [htf]
          exact List.mem_append_left _ (by simp [logTrace])
        · intro r' id' h
          simp at h
          simp [h.1, hmem]
        · intro r' id' h
          rw [mem_addCompleted, markItemCompleted_completed]
          exact Or.inr h
        · intro r' id' h
          rw [mem_addCompleted, markItemCompleted_completed] at h
          rcases h with ⟨h1, h2'⟩ | h
          · subst h1; subst h2'
            refine Or.inr (Or.inl ?_)
            simp [markItemCompleted, ha, addCompleted, logTrace]
          · exact Or.inl h
      | false =>
        refine stepOk_trans h23 ⟨⟨[], ?_, goodExt_nil _, ?_⟩, ?_, ?_⟩
        · simp [markItemCompleted, ha, addCompleted]
        · intro r' id' h; simp at h
        · intro r' id' h
          rw [mem_addCompleted, markItemCompleted_completed]
          exact Or.inr h
        · intro r' id' h
          rw [mem_addCompleted, markItemCompleted_completed] at h
          rcases h with ⟨h1, h2'⟩ | h
          · subst h1; subst h2'
            exact Or.inr (Or.inr ha)
          · exact Or.inl h
    · rw [if_neg hall]
      exact h23
  · simp only [heq, Bool.false_and, Bool.false_eq_true, if_false]
    have h2 : StepOk env A st
        (logTrace ⟨st.completed, st.trace ++ [TraceEntry.pageFetch n.url]⟩
          (TraceEntry.childEnum n.id)) :=
      stepOk_of_plain
        (δ := [TraceEntry.pageFetch n.url, TraceEntry.childEnum n.id])
        (by simp [logTrace]) rfl (by intro r' id' h; simp at h)
    exact stepOk_trans h2 (stepOk_foldl f _ (fun s x _ => hf s x) _)

theorem stepOk_processGenus (env : Env) (g : Child) (st : CrawlState) :
    StepOk env [Rank.genus, Rank.species] st (processGenus env st g) := by
  by_cases hskip : g.id ∈ st.completed Rank.genus
  · simp only [processGenus, if_pos hskip]
    exact stepOk_refl env _ st
  · simp only [processGenus, if_neg hskip]
    exact stepOk_parentBody env Rank.genus Rank.species g (processSpecies env) _
      (by simp)
      (fun s x => stepOk_mono_allowed
        (by intro r hr; simp at hr; simp [hr]) (stepOk_processSpecies env x s))
      st

theorem stepOk_processFamily (env : Env) (f : Child) (st : CrawlState) :
    StepOk env [Rank.family, Rank.genus, Rank.species] st
      (processFamily env st f) := by
  by_cases hskip : f.id ∈ st.completed Rank.family
  · simp only [processFamily, if_pos hskip]
    exact stepOk_refl env _ st
  · simp only [processFamily, if_neg hskip]
    exact stepOk_parentBody env Rank.family Rank.genus f (processGenus env) _
      (by simp)
      (fun s x => stepOk_mono_allowed
        (by intro r hr; simp at hr; rcases hr with hr | hr <;> simp [hr])
        (stepOk_processGenus env x s))
      st

theorem stepOk_processOrder (env : Env) (o : Child) (st : CrawlState) :
    StepOk env [Rank.order, Rank.family, Rank.genus, Rank.species] st
      (processOrder env st o) := by
  by_cases hskip : o.id ∈ st.completed Rank.order
  · simp only [processOrder, if_pos hskip]
    exact stepOk_refl env _ st
  · simp only [processOrder, if_neg hskip]
    exact stepOk_parentBody env Rank.order Rank.family o (processFamily env) _
      (by simp)
      (fun s x => stepOk_mono_allowed
        (by intro r hr; simp at hr; rcases hr with hr | hr | hr <;> simp [hr])
        (stepOk_processFamily env x s))
      st

theorem stepOk_mainRun (env : Env) (init : Rank → List String) :
    StepOk env [Rank.order, Rank.family, Rank.genus, Rank.species]
      { completed := init, trace := [TraceEntry.rootEnum] } (mainRun env init) := by
  unfold mainRun
  cases env.rootOrders with
  | none => exact stepOk_refl env _ _
  | some orders =>
    exact stepOk_foldl (processOrder env) _
      (fun s x _ => stepOk_processOrder env x s) _

theorem mem_addItem {acc : Rank → List String} {r rr : Rank} {x ii : String} :
    x ∈ addItem acc rr ii r ↔ (r = rr ∧ x = ii) ∨ x ∈ acc r := by
  unfold addItem
  by_cases h : r = rr
  · subst h; simp
  · simp [h]

theorem rankToString_ne_empty (r : Rank) : rankToString r ≠ "" := by
  cases r <;> simp [rankToString]

theorem rankOfString_rankToString (r : Rank) :
    rankOfString (rankToString r) = some r := by
  cases r <;> rfl

theorem rankOfString_eq_some {pt : String} {r : Rank}
    (h : rankOfString pt = some r) : pt = rankToString r := by
  unfold rankOfString at h
  split_ifs at h with h1 h2 h3 h4
  · cases h; simpa [rankToString] using h1
  · cases h; simpa [rankToString] using h2
  · cases h; simpa [rankToString] using h3
  · cases h; simpa [rankToString] using h4

/-- Accumulated identifiers are never removed by the replay loop. -/
theorem loadGo_acc_mono :
    ∀ (lines : List LedgerLine) (acc : Rank → List String) (r : Rank)
      (x : String), x ∈ acc r → x ∈ loadGo lines acc r := by
  intro lines
  induction lines with
  | nil => intro acc r x h; exact h
  | cons l rest ih =>
    intro acc r x h
    cases l with
    | blank => exact ih acc r x h
    | invalidJson => exact ih acc r x h
    | event pt id =>
      cases pt with
      | none => exact ih acc r x h
      | some p =>
        cases id with
        | none => exact ih acc r x h
        | some i =>
          by_cases hg : p ≠ "" ∧ i ≠ ""
          · rw [loadGo, if_pos hg]
            cases hro : rankOfString p with
            | none => exact h
            | some rr =>
              exact ih _ r x (mem_addItem.mpr (Or.inr h))
          · rw [loadGo, if_neg hg]
            exact ih acc r x h

/-- Scanning an appended file decomposes when the first part never
aborts. -/
theorem loadGo_append_clean :
    ∀ (lines0 rest : List LedgerLine) (acc : Rank → List String),
      (∀ l ∈ lines0, ¬ Aborting l) →
      loadGo (lines0 ++ rest) acc = loadGo rest (loadGo lines0 acc) := by
  intro lines0
  induction lines0 with
  | nil => intro rest acc _; rfl
  | cons l t ih =>
    intro rest acc hcl
    have hl : ¬ Aborting l := hcl l (by simp)
    have ht : ∀ x ∈ t, ¬ Aborting x := fun x hx => hcl x (by simp [hx])
    cases l with
    | blank => simpa [loadGo] using ih rest acc ht
    | invalidJson => simpa [loadGo] using ih rest acc ht
    | event pt id =>
      cases pt with
      | none => simpa [loadGo] using ih rest acc ht
      | some p =>
        cases id with
        | none => simpa [loadGo] using ih rest acc ht
        | some i =>
          by_cases hg : p ≠ "" ∧ i ≠ ""
          · cases hro : rankOfString p with
            | none => exact absurd ⟨hg.1, hg.2, hro⟩ hl
            | some rr =>
              rw [List.cons_append, loadGo, if_pos hg, hro, loadGo,
                if_pos hg, hro]
              exact ih rest _ ht
          · rw [List.cons_append, loadGo, if_neg hg, loadGo, if_neg hg]
            exact ih rest acc ht

/-- A well-formed event line present in a never-aborting file lands its
identifier in the set of its rank. -/
theorem loadGo_mem_of_line :
    ∀ (lines : List LedgerLine) (acc : Rank → List String) (r : Rank)
      (id : String), id ≠ "" →
      (∀ l ∈ lines, ¬ Aborting l) →
      LedgerLine.event (some (rankToString r)) (some id) ∈ lines →
      id ∈ loadGo lines acc r := by
  intro lines
  induction lines with
  | nil => intro acc r id _ _ h; simp at h
  | cons l t ih =>
    intro acc r id hid hcl hmem
    have ht : ∀ x ∈ t, ¬ Aborting x := fun x hx => hcl x (by simp [hx])
    rcases List.mem_cons.mp hmem with hl | hl
    · subst hl
      have hg : rankToString r ≠ "" ∧ id ≠ "" := ⟨rankToString_ne_empty r, hid⟩
      rw [loadGo, if_pos hg, rankOfString_rankToString]
      exact loadGo_acc_mono t _ r id (mem_addItem.mpr (Or.inl ⟨rfl, rfl⟩))
    · have hrec := ih acc r id hid ht hl
      cases l with
      | blank => exact hrec
      | invalidJson => exact hrec
      | event pt idf =>
        cases pt with
        | none => exact hrec
        | some p =>
          cases idf with
          | none => exact hrec
          | some i =>
            by_cases hg : p ≠ "" ∧ i ≠ ""
            · cases hro : rankOfString p with
              | none =>
                exact absurd
                  (show Aborting (LedgerLine.event (some p) (some i)) from
                    ⟨hg.1, hg.2, hro⟩)
                  (hcl (LedgerLine.event (some p) (some i)) (by simp))
              | some rr =>
                rw [loadGo, if_pos hg, hro]
                exact ih _ r id hid ht hl
            · rw [loadGo, if_neg hg]
              exact hrec

/-- Soundness of replay: every identifier in the result of the scan either
was already accumulated or comes from a well-formed event line of the
file. -/
theorem loadGo_sound :
    ∀ (lines : List LedgerLine) (acc : Rank → List String) (r : Rank)
      (x : String), x ∈ loadGo lines acc r →
      x ∈ acc r ∨ LedgerLine.event (some (rankToString r)) (some x) ∈ lines := by
  intro lines
  induction lines with
  | nil => intro acc r x h; exact Or.inl h
  | cons l t ih =>
    intro acc r x h
    have widen : x ∈ loadGo t acc r → x ∈ acc r ∨
        LedgerLine.event (some (rankToString r)) (some x) ∈ l :: t := by
      intro hh
      rcases ih acc r x hh with h' | h'
      · exact Or.inl h'
      · exact Or.inr (by simp [h'])
    cases l with
    | blank => exact widen h
    | invalidJson => exact widen h
    | event pt idf =>
      cases pt with
      | none => exact widen h
      | some p =>
        cases idf with
        | none => exact widen h
        | some i =>
          by_cases hg : p ≠ "" ∧ i ≠ ""
          · rw [loadGo, if_pos hg] at h
            cases hro : rankOfString p with
            | none => rw [hro] at h; exact Or.inl h
            | some rr =>
              rw [hro] at h
              rcases ih _ r x h with h' | h'
              · rcases mem_addItem.mp h' with ⟨h1, h2⟩ | h'
                · subst h1; subst h2
                  refine Or.inr ?_
                  have := rankOfString_eq_some hro
                  simp [this]
                · exact Or.inl h'
              · exact Or.inr (by simp [h'])
          · rw [loadGo, if_neg hg] at h
            exact widen h

/-- The file lines a run writes are never aborting. -/
theorem ledgerLinesOf_not_aborting (tr : List TraceEntry) :
    ∀ l ∈ ledgerLinesOf tr, ¬ Aborting l := by
  intro l hl
  unfold ledgerLinesOf at hl
  rcases List.mem_filterMap.mp hl with ⟨e, -, he⟩
  cases e <;> simp at he
  subst he
  intro hab
  exact absurd hab.2.2 (by simp [rankOfString_rankToString])

/-- Every completion event of the trace yields one well-formed file
line. -/
theorem mem_ledgerLinesOf {tr : List TraceEntry} {r : Rank} {id : String}
    (h : TraceEntry.completionWrite r id ∈ tr) :
    LedgerLine.event (some (rankToString r)) (some id) ∈ ledgerLinesOf tr := by
  unfold ledgerLinesOf
  exact List.mem_filterMap.mpr ⟨TraceEntry.completionWrite r id, h, rfl⟩

theorem getPageContent_eq (oracle : Nat → Attempt String) :
    getPageContent oracle = fetchGo oracle 5 0 (5 - 0) := rfl

/-- When the first terminal attempt is the i-th, the fetch returns its
result after i + 1 attempts with one backoff sleep per earlier attempt. -/
theorem getPageContent_first_terminal (oracle : Nat → Attempt String)
    (i : Nat) (res : Option String) (hi : i < 5)
    (hpre : ∀ j, j < i → attemptTerminal? (oracle j) = none)
    (hterm : attemptTerminal? (oracle i) = some res) :
    getPageContent oracle = ⟨res, sleepRun oracle 0 i, i + 1⟩ := by
  have hskip := fetchGo_skip oracle i 0 (by omega)
    (by intro j hj; simpa using hpre j hj)
  have h54 : 5 - (0 + i) = (4 - i) + 1 := by omega
  have hstep : fetchGo oracle 5 (0 + i) (5 - (0 + i)) = ⟨res, [], 1⟩ := by
    rw [h54, fetchGo]
    simp only [Nat.zero_add]
    rw [hterm]
  rw [getPageContent_eq, hskip, hstep]
  simp

/-- When the i-th attempt is non-terminal and another attempt remains, the
i-th backoff sleep is the duration of its branch. -/
theorem getPageContent_sleep_at (oracle : Nat → Attempt String) (i : Nat)
    (hi : i + 1 < 5)
    (hpre : ∀ j, j < i → attemptTerminal? (oracle j) = none)
    (hcur : attemptTerminal? (oracle i) = none) :
    (getPageContent oracle).sleeps[i]? = some (sleepDur (oracle i)) := by
  have hskip := fetchGo_skip oracle (i + 1) 0 (by omega)
    (by
      intro j hj
      rcases Nat.lt_succ_iff_lt_or_eq.mp hj with h | h
      · simpa using hpre j h
      · subst h; simpa using hcur)
  rw [getPageContent_eq, hskip]
  simp only []
  rw [List.getElem?_append_left (by rw [sleepRun_length]; omega)]
  rw [sleepRun_getElem oracle (i + 1) 0 i (by omega)]
  simp

/-- C2: for every URL the fetcher makes at most 5 attempts; an HTTP 200
returns the content at once; an HTTP 404 returns None at once with no
further attempt and no backoff sleep; any other HTTP status issues a
10-second backoff before the next attempt; and when all 5 attempts fail
the function returns None rather than raising (the embedding is a total
function). -/
theorem C2_retry_policy (oracle : Nat → Attempt String) :
    (getPageContent oracle).requests ≤ 5 ∧
    (∀ i body, i < 5 → (∀ j, j < i → attemptTerminal? (oracle j) = none) →
      oracle i = Attempt.status 200 body →
      (getPageContent oracle).content = some body ∧
      (getPageContent oracle).requests = i + 1 ∧
      (getPageContent oracle).sleeps.length = i) ∧
    (∀ i body, i < 5 → (∀ j, j < i → attemptTerminal? (oracle j) = none) →
      oracle i = Attempt.status 404 body →
      (getPageContent oracle).content = none ∧
      (getPageContent oracle).requests = i + 1 ∧
      (getPageContent oracle).sleeps.length = i) ∧
    (∀ i code body, i + 1 < 5 →
      (∀ j, j < i → attemptTerminal? (oracle j) = none) →
      oracle i = Attempt.status code body → code ≠ 200 → code ≠ 404 →
      (getPageContent oracle).sleeps[i]? = some 10) ∧
    ((∀ j, j < 5 → attemptTerminal? (oracle j) = none) →
      (getPageContent oracle).content = none ∧
      (getPageContent oracle).requests = 5) := by
  refine ⟨fetchGo_requests_le oracle 5 5 0, ?_, ?_, ?_, ?_⟩
  · intro i body hi hpre ho
    have h := getPageContent_first_terminal oracle i (some body) hi hpre
      (by rw [ho]; rfl)
    rw [h]
    exact ⟨rfl, rfl, sleepRun_length oracle i 0⟩
  · intro i body hi hpre ho
    have h := getPageContent_first_terminal oracle i none hi hpre
      (by rw [ho]; rfl)
    rw [h]
    exact ⟨rfl, rfl, sleepRun_length oracle i 0⟩
  · intro i code body hi hpre ho hc2 hc4
    have h := getPageContent_sleep_at oracle i hi hpre
      (by rw [ho]; simp [attemptTerminal?, hc2, hc4])
    rw [h, ho]
    rfl
  · intro hall
    have hskip := fetchGo_skip oracle 4 0 (by omega)
      (by intro j hj; simpa using hall j (by omega))
    have hstep : fetchGo oracle 5 (0 + 4) (5 - (0 + 4)) =
        ⟨none, [], 1⟩ := by
      rw [show 5 - (0 + 4) = 0 + 1 from rfl, fetchGo]
      rw [show (0:Nat) + 4 = 4 from rfl, hall 4 (by omega)]
      rfl
    rw [getPageContent_eq, hskip, hstep]
    exact ⟨rfl, rfl⟩

theorem C2_retry_policy_witness :
    (getPageContent (fun _ => Attempt.status 200 "page")).content = some "page" ∧
    (getPageContent (fun _ => Attempt.status 200 "page")).requests = 1 := by
  have h := (C2_retry_policy (fun _ => Attempt.status 200 "page")).2.1 0 "page"
    (by omega) (fun j hj => absurd hj (Nat.not_lt_zero j)) rfl
  exact ⟨h.1, h.2.1⟩

/-- C9 counterexample: an SSL-layer exception that is not an abrupt
termination (for example a certificate failure inside
requests.exceptions.SSLError) is an exception that is neither an abrupt
transport/TLS termination nor an HTTP-status outcome, yet every backoff it
triggers is 10 seconds, where the claim requires about 3 seconds. -/
theorem C9_counterexample :
    (getPageContent (fun _ => Attempt.sslExc false)).sleeps = [10, 10, 10, 10] ∧
    ((10:Nat) ≠ 3) := by
  exact ⟨rfl, by omega⟩

/-- C9 amended: within a fetch attempt, an abrupt transport/TLS
termination triggers a 180-second cool-down before retry; an SSL-layer
exception that is not an abrupt termination triggers a 10-second backoff
(lines 125-128 of the source, a case the claim folds into the 3-second
class); and every other exception triggers a 3-second backoff. -/
theorem C9_backoff_amended (oracle : Nat → Attempt String) (i : Nat)
    (hi : i + 1 < 5)
    (hpre : ∀ j, j < i → attemptTerminal? (oracle j) = none) :
    (oracle i = Attempt.sslExc true →
      (getPageContent oracle).sleeps[i]? = some 180) ∧
    (oracle i = Attempt.sslExc false →
      (getPageContent oracle).sleeps[i]? = some 10) ∧
    (oracle i = Attempt.otherExc →
      (getPageContent oracle).sleeps[i]? = some 3) := by
  refine ⟨?_, ?_, ?_⟩ <;> intro ho <;>
    (rw [getPageContent_sleep_at oracle i hi hpre (by rw [ho]; rfl), ho]; rfl)

theorem C9_backoff_amended_witness :
    (getPageContent (fun j => if j = 0 then Attempt.sslExc true else
      Attempt.otherExc)).sleeps[0]? = some 180 := by
  exact (C9_backoff_amended _ 0 (by omega)
    (fun j hj => absurd hj (Nat.not_lt_zero j))).1 rfl

/-- C8: get_taxon_children never raises (it is embedded as a total
function); when the API call fails after its retries are exhausted it
returns the empty list, and that result coincides with the result for a
taxon whose enumeration genuinely returned no usable data. -/
theorem C8_children_soft_failure (oracle : Nat → Attempt (List RawItem)) :
    ((getApiData oracle).content = none → getTaxonChildrenRun oracle = []) ∧
    getTaxonChildren none = [] ∧
    getTaxonChildren (some []) = [] := by
  refine ⟨?_, rfl, rfl⟩
  intro h
  unfold getTaxonChildrenRun
  rw [h]
  rfl

theorem C8_children_soft_failure_witness :
    getTaxonChildrenRun (fun _ => Attempt.otherExc) = [] :=
  (C8_children_soft_failure (fun _ => Attempt.otherExc)).1 rfl

/-- C3: a node whose identifier is already in the in-memory completed set
of its rank when it is visited is returned from unchanged: no page fetch,
no child enumeration, no record write and no ledger event happen for it or
for anything below it, at every rank including the per-order skip in
main. -/
theorem C3_skip_fast_path (env : Env) (st : CrawlState) (x : Child) :
    (x.id ∈ st.completed Rank.species → processSpecies env st x = st) ∧
    (x.id ∈ st.completed Rank.genus → processGenus env st x = st) ∧
    (x.id ∈ st.completed Rank.family → processFamily env st x = st) ∧
    (x.id ∈ st.completed Rank.order → processOrder env st x = st) := by
  refine ⟨fun h => ?_, fun h => ?_, fun h => ?_, fun h => ?_⟩
  · simp [processSpecies, h]
  · simp [processGenus, h]
  · simp [processFamily, h]
  · simp [processOrder, h]

theorem C3_skip_fast_path_witness :
    processSpecies envTest stDone { name := "X", url := "ux", id := "X1" } =
      stDone :=
  (C3_skip_fast_path envTest stDone _).1 (by simp [stDone])

/-- C7: when the replayed ledger already marks every enumerated order
completed, the run performs exactly the root order enumeration and nothing
else: the final state keeps the loaded completed sets and its trace holds
the single root-enumeration action - no page fetch, no child enumeration,
no record write and no new ledger event. -/
theorem C7_idempotent_rerun (env : Env) (init : Rank → List String)
    (orders : List Child) (hroot : env.rootOrders = some orders)
    (hdone : ∀ o ∈ orders, o.id ∈ init Rank.order) :
    mainRun env init =
      { completed := init, trace := [TraceEntry.rootEnum] } := by
  simp only [mainRun, hroot]
  have key : ∀ l : List Child, (∀ o ∈ l, o.id ∈ init Rank.order) →
      List.foldl (processOrder env)
        { completed := init, trace := [TraceEntry.rootEnum] } l =
        { completed := init, trace := [TraceEntry.rootEnum] } := by
    intro l
    induction l with
    | nil => intro _; rfl
    | cons x xs ih =>
      intro hl
      rw [List.foldl_cons]
      have hx : processOrder env
          { completed := init, trace := [TraceEntry.rootEnum] } x =
          { completed := init, trace := [TraceEntry.rootEnum] } := by
        have hm : x.id ∈ init Rank.order := hl x (by simp)
        simp [processOrder, hm]
      rw [hx]
      exact ih (fun o ho => hl o (by simp [ho]))
  exact key orders.reverse (fun o ho => hdone o (List.mem_reverse.mp ho))

theorem C7_idempotent_rerun_witness :
    mainRun envTest (fun _ => ["O1"]) =
      { completed := fun _ => ["O1"], trace := [TraceEntry.rootEnum] } :=
  C7_idempotent_rerun envTest (fun _ => ["O1"])
    [{ name := "Ord", url := "uo", id := "O1" }] rfl
    (by intro o ho; simp at ho; simp [ho])

/-- C6: in any run, every completion event appended to the ledger is
preceded, earlier in the same run, by a record-store write for the same
rank and identifier - a node is marked completed only after at least one
corresponding record was appended. -/
theorem C6_record_before_completion (env : Env) (init : Rank → List String) :
    RecBefore (mainRun env init).trace := by
  obtain ⟨δ, ht, hg, -⟩ := (stepOk_mainRun env init).1
  rw [ht]
  refine recBefore_append ?_ hg
  intro l1 r id l2 heq
  cases l1 with
  | nil => simp at heq
  | cons a t =>
    simp only [List.cons_append, List.cons.injEq] at heq
    exact absurd heq.2 (by simp)

theorem C6_record_before_completion_witness :
    TraceEntry.recordWrite Rank.order "O1" ∈
      [TraceEntry.rootEnum, TraceEntry.pageFetch "uo",
       TraceEntry.recordWrite Rank.order "O1", TraceEntry.childEnum "O1"] :=
  C6_record_before_completion envTest (fun _ => [])
    [TraceEntry.rootEnum, TraceEntry.pageFetch "uo",
     TraceEntry.recordWrite Rank.order "O1", TraceEntry.childEnum "O1"]
    Rank.order "O1" [] (by decide)

/-- C4 counterexample: when the completion-file append inside
mark_item_completed fails, the exception is logged and swallowed (lines
268-269) and the caller still inserts the identifier into the in-memory
completed set (line 436), so after processing one species with a failing
append the memory set holds the identifier while the ledger holds no
corresponding event. -/
theorem C4_counterexample :
    "s1" ∈ (processSpecies envNoAppend stEmpty spTest).completed Rank.species ∧
    TraceEntry.completionWrite Rank.species "s1" ∉
      (processSpecies envNoAppend stEmpty spTest).trace := by
  constructor
  · decide
  · decide

/-- C4 amended: mark_item_completed appends the event to the ledger file
first and the caller inserts into the in-memory set afterwards, but the
insert is unconditional - a failing append is swallowed, so the memory set
can exceed the ledger; when every attempted append succeeds, each
identifier newly present in a completed set after a per-node call has its
completion event in the trace. -/
theorem C4_amended_ledger_backing (env : Env)
    (happ : ∀ r id, env.appendOk r id = true) (st : CrawlState) (x : Child) :
    (∀ r id, id ∈ (processSpecies env st x).completed r →
      id ∈ st.completed r ∨
      TraceEntry.completionWrite r id ∈ (processSpecies env st x).trace) ∧
    (∀ r id, id ∈ (processGenus env st x).completed r →
      id ∈ st.completed r ∨
      TraceEntry.completionWrite r id ∈ (processGenus env st x).trace) ∧
    (∀ r id, id ∈ (processFamily env st x).completed r →
      id ∈ st.completed r ∨
      TraceEntry.completionWrite r id ∈ (processFamily env st x).trace) ∧
    (∀ r id, id ∈ (processOrder env st x).completed r →
      id ∈ st.completed r ∨
      TraceEntry.completionWrite r id ∈ (processOrder env st x).trace) := by
  refine ⟨fun r id h => ?_, fun r id h => ?_, fun r id h => ?_,
    fun r id h => ?_⟩
  · rcases (stepOk_processSpecies env x st).2.2 r id h with h' | h' | h'
    · exact Or.inl h'
    · exact Or.inr h'
    · simp [happ r id] at h'
  · rcases (stepOk_processGenus env x st).2.2 r id h with h' | h' | h'
    · exact Or.inl h'
    · exact Or.inr h'
    · simp [happ r id] at h'
  · rcases (stepOk_processFamily env x st).2.2 r id h with h' | h' | h'
    · exact Or.inl h'
    · exact Or.inr h'
    · simp [happ r id] at h'
  · rcases (stepOk_processOrder env x st).2.2 r id h with h' | h' | h'
    · exact Or.inl h'
    · exact Or.inr h'
    · simp [happ r id] at h'

theorem C4_amended_ledger_backing_witness :
    "s1" ∈ stEmpty.completed Rank.species ∨
    TraceEntry.completionWrite Rank.species "s1" ∈
      (processSpecies envTest stEmpty spTest).trace :=
  (C4_amended_ledger_backing envTest (fun _ _ => rfl) stEmpty spTest).1
    Rank.species "s1" (by decide)

/-- C5 counterexample: the in-memory sets can hold identifiers the ledger
file never received (a swallowed append failure), so the set loaded by the
next run from the resulting file is not a superset of what this run held
in memory. -/
theorem C5_counterexample :
    "s1" ∈ (processSpecies envNoAppend stEmpty spTest).completed Rank.species ∧
    "s1" ∉ loadCompletedItems
      (some (ledgerLinesOf (processSpecies envNoAppend stEmpty spTest).trace))
      Rank.species := by
  constructor
  · decide
  · decide

/-- C5 amended: within a run no operation removes an identifier from any
completed set (they only grow, across every per-node call and across
main); across runs, the set replayed from the resulting ledger file is a
superset of everything the run held in memory provided every attempted
ledger append succeeded, the prior file contains no scan-aborting line and
the identifiers of the completion events written are non-empty. -/
theorem C5_monotonicity_amended (env : Env) (st : CrawlState) (x : Child)
    (lines0 : List LedgerLine) :
    (∀ r id, id ∈ st.completed r → id ∈ (processSpecies env st x).completed r) ∧
    (∀ r id, id ∈ st.completed r → id ∈ (processGenus env st x).completed r) ∧
    (∀ r id, id ∈ st.completed r → id ∈ (processFamily env st x).completed r) ∧
    (∀ r id, id ∈ st.completed r → id ∈ (processOrder env st x).completed r) ∧
    (∀ (init : Rank → List String) r id, id ∈ init r →
      id ∈ (mainRun env init).completed r) ∧
    ((∀ r id, env.appendOk r id = true) →
      (∀ l ∈ lines0, ¬ Aborting l) →
      (∀ r id, TraceEntry.completionWrite r id ∈
        (mainRun env (loadCompletedItems (some lines0))).trace → id ≠ "") →
      ∀ r id,
        id ∈ (mainRun env (loadCompletedItems (some lines0))).completed r →
        id ∈ loadCompletedItems (some (lines0 ++
          ledgerLinesOf
            (mainRun env (loadCompletedItems (some lines0))).trace)) r) := by
  refine ⟨(stepOk_processSpecies env x st).2.1,
    (stepOk_processGenus env x st).2.1,
    (stepOk_processFamily env x st).2.1,
    (stepOk_processOrder env x st).2.1,
    fun init r id h => (stepOk_mainRun env init).2.1 r id h,
    ?_⟩
  intro happ hcl hids r id h
  rcases (stepOk_mainRun env (loadCompletedItems (some lines0))).2.2 r id h
    with h' | h' | h'
  · show id ∈ loadGo (lines0 ++
      ledgerLinesOf
        (mainRun env (loadCompletedItems (some lines0))).trace) (fun _ => []) r
    rw [loadGo_append_clean lines0 _ _ hcl]
    exact loadGo_acc_mono _ _ r id h'
  · have hid := hids r id h'
    have hline := mem_ledgerLinesOf h'
    show id ∈ loadGo (lines0 ++
      ledgerLinesOf
        (mainRun env (loadCompletedItems (some lines0))).trace) (fun _ => []) r
    rw [loadGo_append_clean lines0 _ _ hcl]
    exact loadGo_mem_of_line _ _ r id hid (ledgerLinesOf_not_aborting _) hline
  · simp [happ r id] at h'

theorem C5_monotonicity_amended_witness :
    "O1" ∈ loadCompletedItems
      (some ([] ++ ledgerLinesOf
        (mainRun envTest (loadCompletedItems (some []))).trace)) Rank.order := by
  refine (C5_monotonicity_amended envTest stEmpty spTest []).2.2.2.2.2
    (fun _ _ => rfl) (by simp) ?_ Rank.order "O1" (by decide)
  intro r id hmem
  have htr : (mainRun envTest (loadCompletedItems (some []))).trace =
      [TraceEntry.rootEnum, TraceEntry.pageFetch "uo",
       TraceEntry.recordWrite Rank.order "O1", TraceEntry.childEnum "O1",
       TraceEntry.completionWrite Rank.order "O1"] := by decide
  rw [htr] at hmem
  simp at hmem
  simp [hmem.2]

/-- A new completion event for a non-leaf node can only come from the
final guarded mark of its own body: processing the children appends only
child-rank completion events, so a new event at the node rank forces the
guard - the fetch-and-save succeeded and every enumerated child passed the
completed-set check. -/
theorem completion_guard_body (env : Env) (r cr : Rank) (n : Child)
    (f : CrawlState → Child → CrawlState) (A : List Rank)
    (hrA : r ∉ A)
    (hf : ∀ (s : CrawlState) (x : Child), StepOk env A s (f s x))
    (st : CrawlState)
    (hold : TraceEntry.completionWrite r n.id ∉ st.trace)
    (hin : TraceEntry.completionWrite r n.id ∈
      (if (fetchAndSave env st r n.url n.id).2 &&
          (env.children n.id).all (fun c => decide (c.id ∈
            ((env.children n.id).reverse.foldl f
              (logTrace (fetchAndSave env st r n.url n.id).1
                (TraceEntry.childEnum n.id))).completed cr)) then
        addCompleted
          (markItemCompleted env
            ((env.children n.id).reverse.foldl f
              (logTrace (fetchAndSave env st r n.url n.id).1
                (TraceEntry.childEnum n.id))) r n.id) r n.id
      else
        (env.children n.id).reverse.foldl f
          (logTrace (fetchAndSave env st r n.url n.id).1
            (TraceEntry.childEnum n.id))).trace) :
    env.fetchOk n.url = true ∧ env.saveOk r n.id = true ∧
    ∀ c ∈ env.children n.id, c.id ∈
      (if (fetchAndSave env st r n.url n.id).2 &&
          (env.children n.id).all (fun c => decide (c.id ∈
            ((env.children n.id).reverse.foldl f
              (logTrace (fetchAndSave env st r n.url n.id).1
                (TraceEntry.childEnum n.id))).completed cr)) then
        addCompleted
          (markItemCompleted env
            ((env.children n.id).reverse.foldl f
              (logTrace (fetchAndSave env st r n.url n.id).1
                (TraceEntry.childEnum n.id))) r n.id) r n.id
      else
        (env.children n.id).reverse.foldl f
          (logTrace (fetchAndSave env st r n.url n.id).1
            (TraceEntry.childEnum n.id))).completed cr := by
  rcases fetchAndSave_spec env st r n.url n.id with ⟨hfk, hsv, heq⟩ |
    ⟨hfail, heq⟩
  · simp only [heq, Bool.true_and] at hin ⊢
    obtain ⟨δf, htf, -, hranks⟩ := (stepOk_foldl f (env.children n.id).reverse
      (fun s y _ => hf s y)
      (logTrace ⟨st.completed, st.trace ++
        [TraceEntry.pageFetch n.url, TraceEntry.recordWrite r n.id]⟩
        (TraceEntry.childEnum n.id))).1
    by_cases hall : ((env.children n.id).all (fun c => decide (c.id ∈
        ((env.children n.id).reverse.foldl f
          (logTrace ⟨st.completed, st.trace ++
            [TraceEntry.pageFetch n.url, TraceEntry.recordWrite r n.id]⟩
            (TraceEntry.childEnum n.id))).completed cr))) = true
    · rw [if_pos hall]
      refine ⟨hfk, hsv, ?_⟩
      intro c hc
      have hcm := of_decide_eq_true (List.all_eq_true.mp hall c hc)
      refine mem_addCompleted.mpr (Or.inr ?_)
      rw [markItemCompleted_completed]
      exact hcm
    · rw [if_neg hall] at hin
      exfalso
      rw [htf] at hin
      rcases List.mem_append.mp hin with hin | hin
      · simp only [logTrace] at hin
        rcases List.mem_append.mp hin with hin | hin
        · rcases List.mem_append.mp hin with hin | hin
          · exact hold hin
          · simp at hin
        · simp at hin
      · exact hrA (hranks _ _ hin)
  · simp only [heq, Bool.false_and, Bool.false_eq_true, if_false] at hin
    exfalso
    obtain ⟨δf, htf, -, hranks⟩ := (stepOk_foldl f (env.children n.id).reverse
      (fun s y _ => hf s y)
      (logTrace ⟨st.completed, st.trace ++ [TraceEntry.pageFetch n.url]⟩
        (TraceEntry.childEnum n.id))).1
    rw [htf] at hin
    rcases List.mem_append.mp hin with hin | hin
    · simp only [logTrace] at hin
      rcases List.mem_append.mp hin with hin | hin
      · rcases List.mem_append.mp hin with hin | hin
        · exact hold hin
        · simp at hin
      · simp at hin
    · exact hrA (hranks _ _ hin)

/-- C1: for every non-leaf node (order, family, genus), a new completion
event for the node is appended during its processing only if its own page
fetch-and-save succeeded (save_page returned True) and every child
enumerated for it in this traversal is, at the moment of the final check,
in the in-memory completed set of the child rank (the final state agrees
with the set at the check, since the final mark touches only the node
rank). -/
theorem C1_completion_guard (env : Env) (st : CrawlState) (x : Child) :
    ((TraceEntry.completionWrite Rank.family x.id ∈
        (processFamily env st x).trace ∧
      TraceEntry.completionWrite Rank.family x.id ∉ st.trace) →
      env.fetchOk x.url = true ∧ env.saveOk Rank.family x.id = true ∧
      ∀ g ∈ env.children x.id,
        g.id ∈ (processFamily env st x).completed Rank.genus) ∧
    ((TraceEntry.completionWrite Rank.genus x.id ∈
        (processGenus env st x).trace ∧
      TraceEntry.completionWrite Rank.genus x.id ∉ st.trace) →
      env.fetchOk x.url = true ∧ env.saveOk Rank.genus x.id = true ∧
      ∀ sp ∈ env.children x.id,
        sp.id ∈ (processGenus env st x).completed Rank.species) ∧
    ((TraceEntry.completionWrite Rank.order x.id ∈
        (processOrder env st x).trace ∧
      TraceEntry.completionWrite Rank.order x.id ∉ st.trace) →
      env.fetchOk x.url = true ∧ env.saveOk Rank.order x.id = true ∧
      ∀ fam ∈ env.children x.id,
        fam.id ∈ (processOrder env st x).completed Rank.family) := by
  refine ⟨fun h => ?_, fun h => ?_, fun h => ?_⟩
  · obtain ⟨hin, hold⟩ := h
    by_cases hskip : x.id ∈ st.completed Rank.family
    · rw [show processFamily env st x = st from by
        simp [processFamily, hskip]] at hin
      exact absurd hin hold
    · simp only [processFamily, if_neg hskip] at hin ⊢
      exact completion_guard_body env Rank.family Rank.genus x
        (processGenus env) [Rank.genus, Rank.species] (by decide)
        (fun s y => stepOk_processGenus env y s) st hold hin
  · obtain ⟨hin, hold⟩ := h
    by_cases hskip : x.id ∈ st.completed Rank.genus
    · rw [show processGenus env st x = st from by
        simp [processGenus, hskip]] at hin
      exact absurd hin hold
    · simp only [processGenus, if_neg hskip] at hin ⊢
      exact completion_guard_body env Rank.genus Rank.species x
        (processSpecies env) [Rank.species] (by decide)
        (fun s y => stepOk_processSpecies env y s) st hold hin
  · obtain ⟨hin, hold⟩ := h
    by_cases hskip : x.id ∈ st.completed Rank.order
    · rw [show processOrder env st x = st from by
        simp [processOrder, hskip]] at hin
      exact absurd hin hold
    · simp only [processOrder, if_neg hskip] at hin ⊢
      exact completion_guard_body env Rank.order Rank.family x
        (processFamily env) [Rank.family, Rank.genus, Rank.species]
        (by decide)
        (fun s y => stepOk_processFamily env y s) st hold hin

theorem C1_completion_guard_witness :
    envTest.fetchOk famTest.url = true ∧
    envTest.saveOk Rank.family famTest.id = true ∧
    ∀ g ∈ envTest.children famTest.id,
      g.id ∈ (processFamily envTest stEmpty famTest).completed Rank.genus :=
  (C1_completion_guard envTest stEmpty famTest).1 ⟨by decide, by decide⟩

/-- C10: load_completed_items is total on arbitrary file contents - a
missing file yields four empty sets; blank lines and invalid-JSON lines
are skipped; events with a missing or empty page_type or identifier are
ignored; an event with a truthy unknown page_type aborts the scan through
the outer exception handler but leaves the returned sets free of it; and
every identifier in the returned sets comes from a well-formed event line
of the file. -/
theorem C10_load_robustness :
    (∀ r, loadCompletedItems none r = []) ∧
    (∀ rest acc, loadGo (LedgerLine.blank :: rest) acc = loadGo rest acc) ∧
    (∀ rest acc,
      loadGo (LedgerLine.invalidJson :: rest) acc = loadGo rest acc) ∧
    (∀ rest acc pt,
      loadGo (LedgerLine.event pt none :: rest) acc = loadGo rest acc) ∧
    (∀ rest acc idf,
      loadGo (LedgerLine.event none idf :: rest) acc = loadGo rest acc) ∧
    (∀ rest acc idf,
      loadGo (LedgerLine.event (some "") idf :: rest) acc = loadGo rest acc) ∧
    (∀ rest acc pt id, pt ≠ "" → id ≠ "" → rankOfString pt = none →
      loadGo (LedgerLine.event (some pt) (some id) :: rest) acc = acc) ∧
    (∀ lines r x, x ∈ loadCompletedItems (some lines) r →
      LedgerLine.event (some (rankToString r)) (some x) ∈ lines) := by
  refine ⟨fun r => rfl, fun rest acc => rfl, fun rest acc => rfl,
    ?_, ?_, ?_, ?_, ?_⟩
  · intro rest acc pt
    cases pt <;> rfl
  · intro rest acc idf
    cases idf <;> rfl
  · intro rest acc idf
    cases idf with
    | none => rfl
    | some i => rw [loadGo, if_neg (by simp)]
  · intro rest acc pt id hpt hid hro
    rw [loadGo, if_pos ⟨hpt, hid⟩, hro]
  · intro lines r x h
    rcases loadGo_sound lines (fun _ => []) r x h with h' | h'
    · simp at h'
    · exact h'

theorem C10_load_robustness_witness :
    loadGo [LedgerLine.event (some "kingdom") (some "x1")] (fun _ => []) =
      (fun _ => []) :=
  C10_load_robustness.2.2.2.2.2.2.1 [] (fun _ => []) "kingdom" "x1"
    (by decide) (by decide) rfl

end WFO
